import Mathlib

/-!
Verification of the codebase-extractor pipeline (app.py): file discovery with
scan-root collapsing and exclusion filtering, encoding-tolerant aggregation
with per-file headers, token counting with degradation, and download-filename
sanitization.  Paths are modelled as lists of segment names; the extracted
archive is a tree of named entries.
-/

namespace CodebaseExtractor

/-! ### Python path-string primitives (pathlib semantics used by app.py) -/

/-- Python str.lower, modelled character-wise over the string's characters
(ASCII case mapping). -/
def strLower (s : String) : String := String.mk (s.toList.map Char.toLower)

/-- Index of the last '.' in a character list (Python str.rfind('.')),
none when absent. -/
def lastDotPos : List Char → Option Nat
  | [] => none
  | c :: cs =>
    match lastDotPos cs with
    | some i => some (i + 1)
    | none => if c = '.' then some 0 else none

/-- Python pathlib suffix of a file name: the substring from the last dot,
provided that dot is neither the first nor the last character; else "". -/
def pySuffix (name : String) : String :=
  let cs := name.toList
  match lastDotPos cs with
  | some i => if 0 < i ∧ i + 1 < cs.length then String.mk (cs.drop i) else ""
  | none => ""

/-- Final path component (Python pathlib name), splitting on '/'. -/
def pyName (s : String) : String := (s.splitOn "/").getLastD s

/-- Python pathlib stem: the final component without its suffix. -/
def pathStem (s : String) : String :=
  let nm := pyName s
  let cs := nm.toList
  match lastDotPos cs with
  | some i => if 0 < i ∧ i + 1 < cs.length then String.mk (cs.take i) else nm
  | none => nm

/-! ### get_files helpers (app.py lines 60, 87-98, 105) -/

/-- Extension normalization from app.py line 60:
`f".{ext.lstrip('.').lower()}"`. -/
def normExt (ext : String) : String :=
  "." ++ strLower (String.mk (ext.toList.dropWhile (fun c => c = '.')))

/-- Suffix test from app.py line 105: `item.suffix.lower() in valid_extensions`. -/
def extMatches (valid : List String) (name : String) : Bool :=
  decide (strLower (pySuffix name) ∈ valid)

/-- Exclusion test from app.py lines 87-98 for an item at relative path `p`
below the scan root: the item's own name, or any parent strictly between the
item and the scan root, has its lowercased name in `excl`. -/
def excludedEntry (p : List String) (excl : List String) : Bool :=
  decide (strLower (p.getLastD "") ∈ excl) ||
    p.dropLast.any (fun s => decide (strLower s ∈ excl))

/-- Per-item keep decision of the rglob loop (app.py lines 84-107): not
excluded, is a file, and the suffix matches. -/
def scanKeep (excl valid : List String) (pb : List String × Bool) : Bool :=
  !excludedEntry pb.1 excl && (pb.2 && extMatches valid (pb.1.getLastD ""))

/-! ### count_tokens (app.py lines 33-49) -/

/-- Outcome of `tiktoken.encoding_for_model`: the module may be missing,
the call may raise (e.g. unrecognized model name), or it returns an encoder. -/
inductive TiktokenResult where
  | moduleNotFound : TiktokenResult
  | exc : String → TiktokenResult
  | ok : (String → List Nat) → TiktokenResult

/-- count_tokens from app.py lines 33-49: on success the token-list length;
on ModuleNotFoundError 0; on any other exception (including an unrecognized
model) the approximation `len(text) // 4`. -/
def count_tokens (encodingForModel : TiktokenResult) (text : String) : Nat :=
  match encodingForModel with
  | .ok enc => (enc text).length
  | .moduleNotFound => 0
  | .exc _ => text.length / 4

/-! ### Download filename sanitization (app.py lines 344-349) -/

/-- app.py line 346: keep alphanumerics, '_' and '-' from the archive stem,
replace every other character by '_'. -/
def safe_filename_base (zipName : String) : String :=
  String.mk ((pathStem zipName).toList.map
    (fun c => if c.isAlphanum || c = '_' || c = '-' then c else '_'))

/-- app.py lines 344-349: the try block appends the fixed suffix to the
sanitized base; the except branch falls back to a fixed name.  The
`Except` argument models whether the sanitization raised. -/
def download_filename (sanitized : Except Unit String) : String :=
  match sanitized with
  | .ok base => base ++ "_code_extract.txt"
  | .error _ => "code_extract.txt"

/-! ### Basic lemmas -/

theorem lastDotPos_eq_none {cs : List Char} (h : '.' ∉ cs) :
    lastDotPos cs = none := by
  induction cs with
  | nil => rfl
  | cons c cs ih =>
    have hc : c ≠ '.' := fun hcc => h (hcc ▸ List.mem_cons_self c cs)
    have htl : '.' ∉ cs := fun hm => h (List.mem_cons_of_mem c hm)
    simp [lastDotPos, ih htl, hc]

theorem pySuffix_eq_empty {name : String} (h : '.' ∉ name.toList) :
    pySuffix name = "" := by
  simp only [pySuffix]
  rw [lastDotPos_eq_none h]

theorem normExt_ne_empty (ext : String) : normExt ext ≠ "" := by
  intro hc
  have h2 : ('.' ::
      (strLower (String.mk (ext.toList.dropWhile (fun c => c = '.')))).data)
      = ([] : List Char) := congrArg String.data hc
  exact List.cons_ne_nil _ _ h2

/-! ### Filesystem tree and get_files (app.py lines 51-121) -/

/-! A filesystem entry is a file, or a directory with a list of children.
Mutual two-sorted form so that structural recursion and induction over the
tree are direct. -/

mutual

inductive Entry : Type where
  | file : String → Entry
  | dir : String → EntryList → Entry

inductive EntryList : Type where
  | nil : EntryList
  | cons : Entry → EntryList → EntryList

end

def Entry.name : Entry → String
  | .file n => n
  | .dir n _ => n

/-- Names of the entries in a directory listing. -/
def namesOf : EntryList → List String
  | .nil => []
  | .cons e es => e.name :: namesOf es

mutual

/-- All descendants of an entry as (relative path from the entry's parent,
is-file) pairs: the entry itself followed by its descendants.  This is the
model of `Path.rglob('*')` restricted to one top-level entry. -/
def pathsOfEntry : Entry → List (List String × Bool)
  | .file n => [([n], true)]
  | .dir n cs => ([n], false) :: (pathsOfList cs).map (fun pb => (n :: pb.1, pb.2))

/-- All descendants of a directory listing, in order: the model of
`scan_root.rglob('*')` where the listing is the scan root's children. -/
def pathsOfList : EntryList → List (List String × Bool)
  | .nil => []
  | .cons e es => pathsOfEntry e ++ pathsOfList es

end

/-! Well-formedness of a real directory listing: sibling names are distinct
and children are recursively well-formed. -/

mutual

def entryWf : Entry → Bool
  | .file _ => true
  | .dir _ cs => listWf cs

def listWf : EntryList → Bool
  | .nil => true
  | .cons e es => entryWf e && !(decide (e.name ∈ namesOf es)) && listWf es

end

/-- Scan-root collapse from app.py lines 62-78: when there is exactly one
top-level entry, it is a directory, and its lowercased name is not excluded,
the scan root becomes that directory (`some (name, children)`); otherwise the
scan root stays the extraction root (`none`).  `resolveErr = true` models an
exception inside the try block, which falls back to the extraction root. -/
def collapseRoot (children : EntryList) (resolveErr : Bool)
    (exclusions_lower : List String) : Option (String × EntryList) :=
  if resolveErr then none
  else
    match children with
    | .cons (.dir d cs) .nil =>
      if strLower d ∈ exclusions_lower then none else some (d, cs)
    | _ => none

/-- The children actually scanned by rglob after collapse. -/
def scanChildrenOf (children : EntryList) (resolveErr : Bool)
    (exclusions_lower : List String) : EntryList :=
  match collapseRoot children resolveErr exclusions_lower with
  | some (_, cs) => cs
  | none => children

/-- The scan root's path relative to the extraction root after collapse. -/
def scanRelOf (children : EntryList) (resolveErr : Bool)
    (exclusions_lower : List String) : List String :=
  match collapseRoot children resolveErr exclusions_lower with
  | some (d, _) => [d]
  | none => []

/-- get_files from app.py lines 51-121.  `rootPath` is the absolute path of
the processing directory as a list of segments; `content` is `none` when the
path is not a directory (line 56) and otherwise the directory's entries;
`resolveErr` models an exception during scan-root resolution (line 76).
Returns the matched absolute paths (segment lists) and the scan root's
absolute path, mirroring the `(matched_files, scan_root)` return value. -/
def get_files (rootPath : List String) (content : Option EntryList)
    (resolveErr : Bool) (extensions : List String)
    (exclusions_lower : List String) : List (List String) × List String :=
  match content with
  | none => ([], rootPath)
  | some children =>
    let valid_extensions := extensions.map normExt
    let scanPath := rootPath ++ scanRelOf children resolveErr exclusions_lower
    let scanChildren := scanChildrenOf children resolveErr exclusions_lower
    (((pathsOfList scanChildren).filter
        (scanKeep exclusions_lower valid_extensions)).map
      (fun pb => scanPath ++ pb.1), scanPath)

/-! ### Tree lemmas -/

theorem pathsOfEntry_ne_nil {e : Entry} {pb : List String × Bool}
    (h : pb ∈ pathsOfEntry e) : pb.1 ≠ [] := by
  cases e with
  | file n =>
    simp only [pathsOfEntry, List.mem_singleton] at h
    subst h
    simp
  | dir n cs =>
    simp only [pathsOfEntry, List.mem_cons] at h
    rcases h with h | h
    · subst h; simp
    · obtain ⟨q, _, hq⟩ := List.mem_map.mp h
      rw [← hq]
      simp

theorem pathsOfEntry_head {e : Entry} {pb : List String × Bool}
    (h : pb ∈ pathsOfEntry e) : pb.1.headD "" = e.name := by
  cases e with
  | file n =>
    simp only [pathsOfEntry, List.mem_singleton] at h
    subst h
    rfl
  | dir n cs =>
    simp only [pathsOfEntry, List.mem_cons] at h
    rcases h with h | h
    · subst h; rfl
    · obtain ⟨q, _, hq⟩ := List.mem_map.mp h
      rw [← hq]
      rfl

theorem pathsOfList_ne_nil : ∀ {es : EntryList} {pb : List String × Bool},
    pb ∈ pathsOfList es → pb.1 ≠ []
  | .cons e es, pb, h => by
    simp only [pathsOfList, List.mem_append] at h
    rcases h with h | h
    · exact pathsOfEntry_ne_nil h
    · exact pathsOfList_ne_nil h

theorem pathsOfList_head : ∀ {es : EntryList} {pb : List String × Bool},
    pb ∈ pathsOfList es → pb.1.headD "" ∈ namesOf es
  | .cons e es, pb, h => by
    simp only [pathsOfList, List.mem_append] at h
    simp only [namesOf, List.mem_cons]
    rcases h with h | h
    · exact Or.inl (pathsOfEntry_head h)
    · exact Or.inr (pathsOfList_head h)

mutual

theorem pathsOfEntry_nodup : ∀ {e : Entry}, entryWf e = true →
    ((pathsOfEntry e).map Prod.fst).Nodup
  | .file n, _ => by simp [pathsOfEntry]
  | .dir n cs, h => by
    have ih := pathsOfList_nodup (e := cs) h
    simp only [pathsOfEntry, List.map_cons, List.map_map]
    refine List.nodup_cons.mpr ⟨?_, ?_⟩
    · intro hmem
      obtain ⟨pb, hpb, hq⟩ := List.mem_map.mp hmem
      have hcons : n :: pb.1 = [n] := hq
      have hnil : pb.1 = [] := by
        have := congrArg List.tail hcons
        simpa using this
      exact pathsOfList_ne_nil hpb hnil
    · have hmm : (pathsOfList cs).map
          (Prod.fst ∘ fun pb : List String × Bool => (n :: pb.1, pb.2)) =
          ((pathsOfList cs).map Prod.fst).map (fun l => n :: l) := by
        rw [List.map_map]
        rfl
      exact hmm ▸ ih.map List.cons_injective

theorem pathsOfList_nodup : ∀ {e : EntryList}, listWf e = true →
    ((pathsOfList e).map Prod.fst).Nodup
  | .nil, _ => by simp [pathsOfList]
  | .cons e es, h => by
    have h3 : entryWf e = true ∧ (e.name ∈ namesOf es → False) ∧
        listWf es = true := by
      have h' := h
      simp only [listWf, Bool.and_eq_true, Bool.not_eq_true',
        decide_eq_false_iff_not] at h'
      exact ⟨h'.1.1, h'.1.2, h'.2⟩
    simp only [pathsOfList, List.map_append]
    refine List.Nodup.append (pathsOfEntry_nodup h3.1)
      (pathsOfList_nodup h3.2.2) ?_
    intro a ha hb
    obtain ⟨pa, hpa, hqa⟩ := List.mem_map.mp ha
    obtain ⟨pb, hpb, hqb⟩ := List.mem_map.mp hb
    have hha := pathsOfEntry_head hpa
    have hhb := pathsOfList_head hpb
    rw [hqa] at hha
    rw [hqb] at hhb
    rw [hha] at hhb
    exact h3.2.1 hhb

end

/-! ### Decomposition lemmas for exclusion checking -/

theorem getLastD_eq_getLast {p : List String} (hp : p ≠ []) :
    p.getLastD "" = p.getLast hp := by
  rw [List.getLastD_eq_getLast?, List.getLast?_eq_getLast p hp]
  rfl

/-- The code's exclusion test (own name, or a parent strictly below the scan
root) is equivalent to: some segment of the relative path is excluded. -/
theorem excludedEntry_eq_false_iff {p : List String} (hp : p ≠ [])
    (excl : List String) :
    excludedEntry p excl = false ↔ ∀ s ∈ p, strLower s ∉ excl := by
  simp only [excludedEntry, Bool.or_eq_false_iff, decide_eq_false_iff_not,
    List.any_eq_false, decide_eq_true_eq]
  constructor
  · rintro ⟨hlast, hrest⟩ s hs
    rw [← List.dropLast_append_getLast hp, List.mem_append,
      List.mem_singleton] at hs
    rcases hs with hs | hs
    · exact hrest s hs
    · rw [hs, ← getLastD_eq_getLast hp]
      exact hlast
  · intro hall
    refine ⟨?_, fun s hs => hall s ((List.dropLast_sublist p).subset hs)⟩
    rw [getLastD_eq_getLast hp]
    exact hall _ (List.getLast_mem hp)

/-- Unfolding equation for get_files on a valid root. -/
theorem get_files_some (rootPath : List String) (children : EntryList)
    (rErr : Bool) (exts excl : List String) :
    get_files rootPath (some children) rErr exts excl =
      (((pathsOfList (scanChildrenOf children rErr excl)).filter
          (scanKeep excl (exts.map normExt))).map
        (fun pb => (rootPath ++ scanRelOf children rErr excl) ++ pb.1),
       rootPath ++ scanRelOf children rErr excl) := rfl

theorem scanKeep_eq_true {excl valid : List String} {pb : List String × Bool} :
    scanKeep excl valid pb = true ↔
      excludedEntry pb.1 excl = false ∧ pb.2 = true ∧
        extMatches valid (pb.1.getLastD "") = true := by
  simp [scanKeep, Bool.and_eq_true, Bool.not_eq_true']

/-- The scan root's children listing stays well-formed after collapse. -/
theorem scanChildren_wf (children : EntryList) (rErr : Bool)
    (excl : List String) (h : listWf children = true) :
    listWf (scanChildrenOf children rErr excl) = true := by
  cases rErr with
  | true => simpa [scanChildrenOf, collapseRoot] using h
  | false =>
    cases children with
    | nil => simpa [scanChildrenOf, collapseRoot] using h
    | cons e es =>
      cases e with
      | file n => simpa [scanChildrenOf, collapseRoot] using h
      | dir d cs =>
        cases es with
        | cons e2 es2 => simpa [scanChildrenOf, collapseRoot] using h
        | nil =>
          by_cases hd : strLower d ∈ excl
          · simpa [scanChildrenOf, collapseRoot, hd] using h
          · have hwf : listWf cs = true := by
              simp only [listWf, entryWf, Bool.and_eq_true] at h
              exact h.1.1
            simpa [scanChildrenOf, collapseRoot, hd] using hwf

/-! ### Claim theorems: C5, C8, C10 -/

/-- C5: count_tokens returns 0 when the tokenizer module is unavailable, and
exactly `text.length / 4` (integer division: the unique `q` with
`4*q ≤ L < 4*q + 4`) when the backend raises, e.g. for an unrecognized
profile name. -/
theorem count_tokens_degradation (text msg : String) :
    count_tokens .moduleNotFound text = 0 ∧
    count_tokens (.exc msg) text = text.length / 4 ∧
    4 * (text.length / 4) ≤ text.length ∧
    text.length < 4 * (text.length / 4) + 4 := by
  refine ⟨rfl, rfl, ?_, ?_⟩
  · have h := Nat.div_add_mod text.length 4
    omega
  · have h := Nat.div_add_mod text.length 4
    have h2 : text.length % 4 < 4 := Nat.mod_lt _ (by norm_num)
    omega

/-- C8: the download filename is the sanitized archive base name (stem with
every character outside alphanumeric/'_'/'-' replaced by '_') followed by
the fixed suffix "_code_extract.txt"; if sanitization raises, the fixed
fallback "code_extract.txt" is used.  Every character of the sanitized base
is in the allowed class. -/
theorem download_filename_spec (zipName : String) :
    download_filename (.ok (safe_filename_base zipName)) =
      safe_filename_base zipName ++ "_code_extract.txt" ∧
    download_filename (.error ()) = "code_extract.txt" ∧
    ∀ c ∈ (safe_filename_base zipName).toList,
      c.isAlphanum = true ∨ c = '_' ∨ c = '-' := by
  refine ⟨rfl, rfl, ?_⟩
  intro c hc
  have hc' : c ∈ (pathStem zipName).toList.map
      (fun c => if c.isAlphanum || c = '_' || c = '-' then c else '_') := hc
  obtain ⟨a, _, ha⟩ := List.mem_map.mp hc'
  by_cases hall : (a.isAlphanum || a = '_' || a = '-') = true
  · rw [if_pos hall] at ha
    subst ha
    rcases Bool.or_eq_true_iff.mp hall with h | h
    · rcases Bool.or_eq_true_iff.mp h with h' | h'
      · exact Or.inl h'
      · exact Or.inr (Or.inl (of_decide_eq_true h'))
    · exact Or.inr (Or.inr (of_decide_eq_true h))
  · rw [if_neg hall] at ha
    subst ha
    exact Or.inr (Or.inl rfl)

/-- C10: a file name without a dot has empty pathlib suffix, and since every
normalized extension starts with '.', it is nonempty, so such a file never
passes the extension test and is never kept by the scan loop; in particular
the configured entry "Dockerfile" normalizes to ".dockerfile" and a file
named "Dockerfile" has suffix "". -/
theorem no_dot_never_matched (exts : List String) (name : String)
    (h : '.' ∉ name.toList) :
    pySuffix name = "" ∧
    extMatches (exts.map normExt) name = false ∧
    (∀ p b excl, p.getLastD "" = name →
      scanKeep excl (exts.map normExt) (p, b) = false) ∧
    normExt "Dockerfile" = ".dockerfile" ∧
    pySuffix "Dockerfile" = "" := by
  have hs : pySuffix name = "" := pySuffix_eq_empty h
  have hnm : ("" : String) ∉ exts.map normExt := by
    intro hmem
    obtain ⟨e, _, he⟩ := List.mem_map.mp hmem
    exact normExt_ne_empty e he
  have hm : extMatches (exts.map normExt) name = false := by
    show decide (strLower (pySuffix name) ∈ exts.map normExt) = false
    rw [hs]
    exact decide_eq_false hnm
  refine ⟨hs, hm, ?_, by decide, by decide⟩
  intro p b excl hlast
  simp only [scanKeep]
  have hm2 : extMatches (exts.map normExt) (p.getLastD "") = false := hlast ▸ hm
  rw [hm2]
  simp

/-- C10 witness: instantiated at the file name "Dockerfile" with extension
list ["py", "Dockerfile"]. -/
theorem no_dot_never_matched_w :
    ('.' ∉ "Dockerfile".toList) ∧
    (pySuffix "Dockerfile" = "" ∧
     extMatches (["py", "Dockerfile"].map normExt) "Dockerfile" = false ∧
     (∀ p b excl, p.getLastD "" = "Dockerfile" →
       scanKeep excl (["py", "Dockerfile"].map normExt) (p, b) = false) ∧
     normExt "Dockerfile" = ".dockerfile" ∧
     pySuffix "Dockerfile" = "") :=
  ⟨by decide, no_dot_never_matched ["py", "Dockerfile"] "Dockerfile" (by decide)⟩

/-! ### Text decoding with replacement (modelled from the spec) -/

/-- U+FFFD, the Unicode replacement character. -/
def replChar : Char := Char.ofNat 0xFFFD

/-- Whether a byte is a UTF-8 continuation byte. -/
def isCont (b : Nat) : Bool := 0x80 ≤ b && b < 0xC0

/-- Handling of a byte arriving outside a multi-byte sequence: an ASCII byte
is emitted, a valid leading byte opens a sequence (continuation count and
high bits), anything else is replaced by U+FFFD. -/
def utf8Start (b : Nat) : List Char × Nat × Nat :=
  if b < 0x80 then ([Char.ofNat b], 0, 0)
  else if 0xC2 ≤ b && b < 0xE0 then ([], 1, b - 0xC0)
  else if 0xE0 ≤ b && b < 0xF0 then ([], 2, b - 0xE0)
  else if 0xF0 ≤ b && b < 0xF5 then ([], 3, b - 0xF0)
  else ([replChar], 0, 0)

/-- Decoding loop: `need` continuation bytes are still expected for the
sequence accumulated in `acc`; an invalid continuation byte aborts the
sequence with one U+FFFD and reprocesses the byte as a sequence start; a
truncated sequence at end of input yields one U+FFFD. -/
def utf8Loop : Nat → Nat → List Nat → List Char
  | need, _, [] => if need = 0 then [] else [replChar]
  | 0, _, b :: rest =>
    let s := utf8Start b
    s.1 ++ utf8Loop s.2.1 s.2.2 rest
  | need + 1, acc, b :: rest =>
    if isCont b then
      if need = 0 then
        Char.ofNat (acc * 64 + (b - 0x80)) :: utf8Loop 0 0 rest
      else utf8Loop need (acc * 64 + (b - 0x80)) rest
    else
      let s := utf8Start b
      replChar :: (s.1 ++ utf8Loop s.2.1 s.2.2 rest)

/-- Modelled from the spec: Python's text decoding with `errors='replace'`
(the codec layer behind `open(..., errors='replace')`, absent from src).
UTF-8 decoding that substitutes U+FFFD for invalid byte sequences and is
total — it never fails on malformed bytes.  Overlong/surrogate rejection is
elided. -/
def utf8DecodeReplace (bs : List Nat) : List Char := utf8Loop 0 0 bs

/-- Modelled from the spec: latin-1 decoding maps every byte to the code
point of the same value, so it succeeds for any byte sequence. -/
def latin1Decode (bs : List Nat) : List Char := bs.map (fun b => Char.ofNat b)

/-! ### read_and_combine (app.py lines 124-207) -/

/-- Outcome of `open(path, 'r', encoding=enc, errors='replace')` followed by
`f.read()` for one file, covering each handler of app.py lines 151-185. -/
inductive ReadOutcome where
  | ok : String → ReadOutcome
  | unicodeError : ReadOutcome
  | fileNotFound : ReadOutcome
  | permissionError : ReadOutcome
  | otherError : String → ReadOutcome

/-- One matched file as read_and_combine observes it: its final name
component, the result of `relative_to` (an error message when it raises
ValueError), the result of reading with the detected encoding, and the
result of the latin-1 retry (consulted only after a UnicodeDecodeError). -/
structure MFile where
  name : String
  rel : Except String String
  primaryRead : ReadOutcome
  fallbackRead : Except String String

/-- Ten '=' characters, `'=' * 10` from app.py line 145. -/
def eqBar : String := String.mk (List.replicate 10 '=')

/-- Header emitted before a file's content, app.py line 145:
`f"\n{'=' * 10} File: {relative_path} {'=' * 10}\n\n"`. -/
def fileHeader (rp : String) : String :=
  "\n" ++ eqBar ++ " File: " ++ rp ++ " " ++ eqBar ++ "\n\n"

/-- The text appended for one file and whether the processed-file counter is
incremented, mirroring one iteration of the loop at app.py lines 138-198. -/
def processFile (f : MFile) : String × Bool :=
  match f.rel with
  | .error ve =>
    ("\n" ++ eqBar ++ " Error processing path: " ++ f.name ++ " " ++ eqBar ++
      "\n[Error: " ++ ve ++ "]\n", false)
  | .ok rp =>
    match f.primaryRead with
    | .ok content => (fileHeader rp ++ content ++ "\n", true)
    | .unicodeError =>
      match f.fallbackRead with
      | .ok content => (fileHeader rp ++ content ++ "\n", true)
      | .error e =>
        (fileHeader rp ++ "[Error reading file: " ++ e ++ "]\n", false)
    | .fileNotFound => (fileHeader rp ++ "[Error: File not found]\n", false)
    | .permissionError =>
      (fileHeader rp ++ "[Error: Permission denied]\n", false)
    | .otherError e =>
      (fileHeader rp ++ "[Error reading file: " ++ e ++ "]\n", false)

/-- read_and_combine from app.py lines 124-207: fold over the matched files
in order, concatenating each file's record and counting successful reads. -/
def read_and_combine (files : List MFile) : String × Nat :=
  files.foldl
    (fun acc f =>
      let r := processFile f
      (acc.1 ++ r.1, acc.2 + (if r.2 then 1 else 0)))
    ("", 0)

/-- The combined text, by direct recursion over the records. -/
def combinedText : List MFile → String
  | [] => ""
  | f :: fs => (processFile f).1 ++ combinedText fs

/-- The processed-file counter, by direct recursion over the records. -/
def processedCount : List MFile → Nat
  | [] => 0
  | f :: fs => (if (processFile f).2 then 1 else 0) + processedCount fs

theorem read_and_combine_go (files : List MFile) (s : String) (n : Nat) :
    files.foldl
      (fun acc f =>
        let r := processFile f
        (acc.1 ++ r.1, acc.2 + (if r.2 then 1 else 0)))
      (s, n) =
    (s ++ combinedText files, n + processedCount files) := by
  induction files generalizing s n with
  | nil => simp [combinedText, processedCount]
  | cons f fs ih =>
    rw [List.foldl_cons]
    show List.foldl _ (s ++ (processFile f).1,
      n + (if (processFile f).2 then 1 else 0)) fs = _
    rw [ih]
    simp only [combinedText, processedCount]
    rw [String.append_assoc, Nat.add_assoc]

theorem read_and_combine_eq (files : List MFile) :
    read_and_combine files = (combinedText files, processedCount files) := by
  rw [read_and_combine, read_and_combine_go]
  simp

theorem read_and_combine_cons (f : MFile) (fs : List MFile) :
    read_and_combine (f :: fs) =
      ((processFile f).1 ++ (read_and_combine fs).1,
       (if (processFile f).2 then 1 else 0) + (read_and_combine fs).2) := by
  rw [read_and_combine_eq, read_and_combine_eq]
  simp only [combinedText, processedCount]

/-! ### Claim theorems: C3, C4, C7 -/

/-- C3: reading with the detected encoding and `errors='replace'` decodes any
byte sequence by substituting U+FFFD for invalid bytes (the record is a
success for every input, malformed or not); if decoding raises outright,
exactly one retry with latin-1 decides the record: on its success the content
is appended and counted, and if even the retry raises the record is the
inline marker `[Error reading file: <description>]`, not counted, and the
rest of the batch is still processed. -/
theorem encoding_fallback_policy (f : MFile) (fs : List MFile) (rp : String)
    (h : f.rel = .ok rp) :
    (∀ bs : List Nat,
      f.primaryRead = .ok (String.mk (utf8DecodeReplace bs)) →
      processFile f =
        (fileHeader rp ++ String.mk (utf8DecodeReplace bs) ++ "\n", true)) ∧
    utf8DecodeReplace [0x61, 0xFF, 0x62] =
      [Char.ofNat 0x61, replChar, Char.ofNat 0x62] ∧
    (f.primaryRead = .unicodeError →
      (∀ c, f.fallbackRead = .ok c →
        processFile f = (fileHeader rp ++ c ++ "\n", true)) ∧
      (∀ bs : List Nat, f.fallbackRead = .ok (String.mk (latin1Decode bs)) →
        processFile f =
          (fileHeader rp ++ String.mk (latin1Decode bs) ++ "\n", true)) ∧
      (∀ e, f.fallbackRead = .error e →
        processFile f =
          (fileHeader rp ++ "[Error reading file: " ++ e ++ "]\n", false))) ∧
    read_and_combine (f :: fs) =
      ((processFile f).1 ++ (read_and_combine fs).1,
       (if (processFile f).2 then 1 else 0) + (read_and_combine fs).2) := by
  obtain ⟨nm, rel, pr, fb⟩ := f
  simp only [] at h
  subst h
  refine ⟨?_, by decide, ?_, read_and_combine_cons _ fs⟩
  · intro bs hpr
    simp only [] at hpr
    subst hpr
    rfl
  · intro hpr
    simp only [] at hpr
    subst hpr
    refine ⟨?_, ?_, ?_⟩
    · intro c hfb
      simp only [] at hfb
      subst hfb
      rfl
    · intro bs hfb
      simp only [] at hfb
      subst hfb
      rfl
    · intro e hfb
      simp only [] at hfb
      subst hfb
      rfl

/-- C3 witness: a file whose primary read decodes the malformed bytes
`61 FF 62` with replacement, and a file whose primary read raises and whose
latin-1 retry also raises, inside a two-file batch. -/
theorem encoding_fallback_policy_w :
    ((⟨"a.py", .ok "src/a.py", .ok (String.mk (utf8DecodeReplace [0x61, 0xFF, 0x62])),
        .ok ""⟩ : MFile).rel = .ok "src/a.py") ∧
    processFile ⟨"a.py", .ok "src/a.py",
        .ok (String.mk (utf8DecodeReplace [0x61, 0xFF, 0x62])), .ok ""⟩ =
      (fileHeader "src/a.py" ++ String.mk (utf8DecodeReplace [0x61, 0xFF, 0x62]) ++
        "\n", true) ∧
    processFile ⟨"b.bin", .ok "b.bin", .unicodeError, .error "boom"⟩ =
      (fileHeader "b.bin" ++ "[Error reading file: " ++ "boom" ++ "]\n",
        false) :=
  ⟨rfl,
   (encoding_fallback_policy
      ⟨"a.py", .ok "src/a.py",
        .ok (String.mk (utf8DecodeReplace [0x61, 0xFF, 0x62])), .ok ""⟩
      [] "src/a.py" rfl).1 [0x61, 0xFF, 0x62] rfl,
   (((encoding_fallback_policy
      ⟨"b.bin", .ok "b.bin", .unicodeError, .error "boom"⟩
      [] "b.bin" rfl).2.2.1 rfl).2.2 "boom" rfl)⟩

/-- C4: for a file whose relative path is computed successfully and whose
read succeeds, the emitted record is exactly
`"\n========== File: " ++ rp ++ " ==========\n\n" ++ content ++ "\n"`. -/
theorem record_shape (f : MFile) (rp content : String)
    (h1 : f.rel = .ok rp) (h2 : f.primaryRead = .ok content) :
    (processFile f).1 =
      "\n========== File: " ++ rp ++ " ==========\n\n" ++ content ++ "\n" := by
  obtain ⟨nm, rel, pr, fb⟩ := f
  simp only [] at h1 h2
  subst h1
  subst h2
  show (fileHeader rp ++ content ++ "\n") = _
  rw [fileHeader]
  have hbar : eqBar = "==========" := rfl
  rw [hbar]
  simp only [String.append_assoc]
  rfl

/-- C4 witness: the record for `src/a.py` with content `x=1` is the exact
string from the spec's scenario. -/
theorem record_shape_w :
    (processFile ⟨"a.py", .ok "src/a.py", .ok "x=1", .ok ""⟩).1 =
      "\n========== File: src/a.py ==========\n\nx=1\n" :=
  record_shape ⟨"a.py", .ok "src/a.py", .ok "x=1", .ok ""⟩ "src/a.py" "x=1"
    rfl rfl

/-- C7: the processed-file count equals the number of files whose read
succeeded (each file counted at most once), hence is at most the number of
matched files handed to read_and_combine. -/
theorem processed_count_le (files : List MFile) :
    (read_and_combine files).2 =
      (files.filter (fun f => (processFile f).2)).length ∧
    (read_and_combine files).2 ≤ files.length := by
  constructor
  · induction files with
    | nil => rfl
    | cons f fs ih =>
      rw [read_and_combine_cons, List.filter_cons]
      cases hb : (processFile f).2 <;> simp [hb, ih]
      omega
  · induction files with
    | nil => simp [read_and_combine]
    | cons f fs ih =>
      rw [read_and_combine_cons]
      simp only [List.length_cons]
      cases hb : (processFile f).2 <;> simp [hb] <;> omega

/-! ### Claim theorems: C1, C2, C6, C9 -/

/-- C1: a file under ScanRoot (relative path `p` in the scanned tree) appears
in the matched list returned by get_files iff its suffix, lowercased, is in
the normalized extension set and no path segment from the file itself up to,
but excluding, ScanRoot has a lowercased name in the exclusion set. -/
theorem mem_matched_iff (rootPath : List String) (children : EntryList)
    (rErr : Bool) (exts excl : List String) (p : List String)
    (hp : (p, true) ∈ pathsOfList (scanChildrenOf children rErr excl)) :
    ((get_files rootPath (some children) rErr exts excl).2 ++ p ∈
        (get_files rootPath (some children) rErr exts excl).1) ↔
      (strLower (pySuffix (p.getLastD "")) ∈ exts.map normExt ∧
       ∀ s ∈ p, strLower s ∉ excl) := by
  have hpn : p ≠ [] := pathsOfList_ne_nil hp
  rw [get_files_some]
  simp only []
  constructor
  · intro hmem
    obtain ⟨pb, hpb, heq⟩ := List.mem_map.mp hmem
    have hfil := List.mem_filter.mp hpb
    have hk := scanKeep_eq_true.mp hfil.2
    have hpp : pb.1 = p := List.append_cancel_left heq
    rw [hpp] at hk
    refine ⟨?_, (excludedEntry_eq_false_iff hpn excl).mp hk.1⟩
    exact of_decide_eq_true hk.2.2
  · rintro ⟨hext, hexc⟩
    refine List.mem_map.mpr ⟨(p, true), List.mem_filter.mpr ⟨hp, ?_⟩, rfl⟩
    refine scanKeep_eq_true.mpr ⟨?_, rfl, ?_⟩
    · exact (excludedEntry_eq_false_iff hpn excl).mpr hexc
    · exact decide_eq_true hext

/-- Concrete project tree: two top-level entries `src` (holding `a.py` and
`b.log`) and `.git` (holding `config`). -/
def sampleTree : EntryList :=
  .cons (.dir "src" (.cons (.file "a.py") (.cons (.file "b.log") .nil)))
    (.cons (.dir ".git" (.cons (.file "config") .nil)) .nil)

/-- C1 witness: in the sample tree with extensions `["py"]` and exclusions
`[".git"]`, the file `src/a.py` satisfies the characterization. -/
theorem mem_matched_iff_w :
    ((["src", "a.py"], true) ∈
        pathsOfList (scanChildrenOf sampleTree false [".git"])) ∧
    (((get_files ["tmp"] (some sampleTree) false ["py"] [".git"]).2 ++
        ["src", "a.py"] ∈
        (get_files ["tmp"] (some sampleTree) false ["py"] [".git"]).1) ↔
      (strLower (pySuffix (["src", "a.py"].getLastD "")) ∈
          ["py"].map normExt ∧
       ∀ s ∈ ["src", "a.py"], strLower s ∉ [".git"])) :=
  ⟨by decide,
   mem_matched_iff ["tmp"] sampleTree false ["py"] [".git"] ["src", "a.py"]
     (by decide)⟩

/-- C2: for a root holding exactly one entry: a directory whose lowercased
name is not excluded becomes the scan root; an excluded single directory, a
single file, or an error during resolution leaves the scan root at the
original root. -/
theorem scan_root_resolution (r : List String) (d n : String) (cs : EntryList)
    (exts excl : List String) :
    (strLower d ∉ excl →
      (get_files r (some (.cons (.dir d cs) .nil)) false exts excl).2 =
        r ++ [d]) ∧
    (strLower d ∈ excl →
      (get_files r (some (.cons (.dir d cs) .nil)) false exts excl).2 = r) ∧
    (get_files r (some (.cons (.file n) .nil)) false exts excl).2 = r ∧
    (∀ content, (get_files r content true exts excl).2 = r) := by
  refine ⟨fun h => ?_, fun h => ?_, ?_, fun content => ?_⟩
  · simp [get_files_some, scanRelOf, collapseRoot, h]
  · simp [get_files_some, scanRelOf, collapseRoot, h]
  · simp [get_files_some, scanRelOf, collapseRoot]
  · cases content with
    | none => rfl
    | some children => simp [get_files_some, scanRelOf, collapseRoot]

/-- C2 witness: a single non-excluded directory "proj" becomes the scan
root; a single excluded directory ".git" does not. -/
theorem scan_root_resolution_w :
    (strLower "proj" ∉ [".git"] ∧
      (get_files ["tmp"] (some (.cons (.dir "proj" .nil) .nil)) false ["py"]
          [".git"]).2 = ["tmp"] ++ ["proj"]) ∧
    (strLower ".git" ∈ [".git"] ∧
      (get_files ["tmp"] (some (.cons (.dir ".git" .nil) .nil)) false ["py"]
          [".git"]).2 = ["tmp"]) :=
  ⟨⟨by decide,
    (scan_root_resolution ["tmp"] "proj" "x" .nil ["py"] [".git"]).1
      (by decide)⟩,
   ⟨by decide,
    (scan_root_resolution ["tmp"] ".git" "x" .nil ["py"] [".git"]).2.1
      (by decide)⟩⟩

/-- C6: on a well-formed tree (distinct sibling names), the matched list has
no duplicate paths, and every returned path is the scan root extended by a
nonempty relative path none of whose ancestor directories (the segments
before the file name) is excluded. -/
theorem matched_nodup_not_excluded (rootPath : List String)
    (children : EntryList) (rErr : Bool) (exts excl : List String)
    (h : listWf children = true) :
    (get_files rootPath (some children) rErr exts excl).1.Nodup ∧
    ∀ q ∈ (get_files rootPath (some children) rErr exts excl).1,
      ∃ p, q = (get_files rootPath (some children) rErr exts excl).2 ++ p ∧
        p ≠ [] ∧ ∀ s ∈ p.dropLast, strLower s ∉ excl := by
  rw [get_files_some]
  simp only []
  constructor
  · have hnd : ((pathsOfList (scanChildrenOf children rErr excl)).map
        Prod.fst).Nodup := pathsOfList_nodup (scanChildren_wf _ _ _ h)
    have hsub : (((pathsOfList (scanChildrenOf children rErr excl)).filter
        (scanKeep excl (exts.map normExt))).map Prod.fst).Sublist
        ((pathsOfList (scanChildrenOf children rErr excl)).map Prod.fst) :=
      (List.filter_sublist _).map Prod.fst
    have hnd2 := hnd.sublist hsub
    have hinj : Function.Injective
        (fun l : List String =>
          (rootPath ++ scanRelOf children rErr excl) ++ l) :=
      fun a b hab => List.append_cancel_left hab
    have hmm : ((pathsOfList (scanChildrenOf children rErr excl)).filter
          (scanKeep excl (exts.map normExt))).map
        (fun pb => (rootPath ++ scanRelOf children rErr excl) ++ pb.1) =
        (((pathsOfList (scanChildrenOf children rErr excl)).filter
          (scanKeep excl (exts.map normExt))).map Prod.fst).map
        (fun l => (rootPath ++ scanRelOf children rErr excl) ++ l) := by
      rw [List.map_map]
      rfl
    rw [hmm]
    exact hnd2.map hinj
  · intro q hq
    obtain ⟨pb, hpb, heq⟩ := List.mem_map.mp hq
    have hfil := List.mem_filter.mp hpb
    have hk := scanKeep_eq_true.mp hfil.2
    have hpn : pb.1 ≠ [] := pathsOfList_ne_nil hfil.1
    refine ⟨pb.1, heq.symm, hpn, ?_⟩
    have hiff := (excludedEntry_eq_false_iff hpn excl).mp hk.1
    exact fun s hs => hiff s ((List.dropLast_sublist pb.1).subset hs)

/-- C6 witness: the sample tree is well-formed, so its matched list is
duplicate-free and every result sits under the scan root with no excluded
ancestor. -/
theorem matched_nodup_not_excluded_w :
    listWf sampleTree = true ∧
    ((get_files ["tmp"] (some sampleTree) false ["py"] [".git"]).1.Nodup ∧
     ∀ q ∈ (get_files ["tmp"] (some sampleTree) false ["py"] [".git"]).1,
       ∃ p, q = (get_files ["tmp"] (some sampleTree) false ["py"]
           [".git"]).2 ++ p ∧
         p ≠ [] ∧ ∀ s ∈ p.dropLast, strLower s ∉ [".git"]) :=
  ⟨by decide,
   matched_nodup_not_excluded ["tmp"] sampleTree false ["py"] [".git"]
     (by decide)⟩

/-- C9: on a path that is not an existing directory, get_files does not fail:
it returns the empty matched list and that same path as the scan root. -/
theorem get_files_invalid_root (rootPath : List String) (rErr : Bool)
    (exts excl : List String) :
    get_files rootPath none rErr exts excl = ([], rootPath) := rfl

end CodebaseExtractor
